import Mathlib

/-!
Verification of the `parti` hash-range partitioning library.

The Go source is shallowly embedded here:
* `Partition` embeds `parti.Partition` (partition.go): a labelled closed
  interval with arbitrary-precision bounds.  Go's `*big.Int` bounds are
  modelled as `Int`; the `nil`-bound branch of `validatePartition` has no
  counterpart because the embedded bounds are not nullable.
* `Split` embeds `(*evenSplitter).Split` (splits.go), with the in-place
  mutation of `leftOver` made explicit by state passing in `splitIter`
  and `setUpperBoundAndCarry`.
* `newPartitionMap`, `sortPartitions`, `resolvePartition`, `keyHash`,
  `marshalJSON` and `unmarshalJSON` embed the corresponding functions of
  partition.go.  Go `error` values are modelled by the inductive `PError`;
  a fallible Go function returning `(T, error)` becomes `Except PError T`.
* Go `int` arguments are modelled as `Int`; `big.Int.Div`/`Mod` are
  Euclidean division and modulus, i.e. `Int.ediv`/`Int.emod`.
-/

/-- The distinct `error` values produced by the package
(partition.go lines 15-37, plus the fatal branch of splits.go and the
`InvalidUnmarshalError` that `encoding/json.Unmarshal` returns for a
non-pointer target). -/
inductive PError where
  | partitionNil
  | invalidNumSplits
  | invalidKey
  | invalidPartition (reason : String)
  | internalFault
  | invalidUnmarshal
deriving DecidableEq

/-- `parti.Partition` (partition.go): a labelled closed interval.
`*big.Int` bounds are embedded as `Int`. -/
structure Partition where
  label : String
  lowerBound : Int
  upperBound : Int
deriving DecidableEq

/-- `strings.Trim(s, " ")`: removes leading and trailing space characters. -/
def trimSpaces (s : String) : String :=
  ⟨((s.toList.dropWhile (· = ' ')).reverse.dropWhile (· = ' ')).reverse⟩

/-- `validatePartition` (partition.go lines 106-124): `nil` partition,
then bound order, then blank label.  (The `nil`-bounds branch is dead in
this embedding because bounds are not nullable.) -/
def validatePartition (p : Option Partition) : Option PError :=
  match p with
  | none => some .partitionNil
  | some q =>
    if q.lowerBound ≥ q.upperBound then
      some (.invalidPartition "partition LowerBound should be strictly less than UpperBound: LowerBound < UpperBound")
    else if q.label = "" || trimSpaces q.label = "" then
      some (.invalidPartition "partition label can be whitespaces/empty")
    else
      none

/-- `setUpperBoundAndCarry` (splits.go lines 78-93).  The Go function
mutates `leftOver` in place; the new value is returned as the second
component. -/
def setUpperBoundAndCarry (base step leftOver : Int) : Int × Int :=
  let ub := base + step
  if leftOver > 0 then (ub + 1, leftOver - 1) else (ub, leftOver)

/-- The `for i := 0; i < numSplits; i++` loop of `(*evenSplitter).Split`
(splits.go lines 51-74): `m` is the number of iterations left, `i` the
loop counter, `prev` the `prevUpperBound` pointer (`none` = Go `nil`)
and `leftOver` the current remainder. -/
def splitIter (lbl : String) (step origLb : Int) :
    Nat → Nat → Option Int → Int → List Partition
  | 0, _, _, _ => []
  | m + 1, i, prev, leftOver =>
    let lb : Int := match prev with | none => origLb | some pu => pu + 1
    let base : Int := match prev with | none => origLb | some pu => pu
    let r := setUpperBoundAndCarry base step leftOver
    { label := lbl ++ "-" ++ toString i, lowerBound := lb, upperBound := r.1 }
      :: splitIter lbl step origLb m (i + 1) (some r.1) r.2

/-- `(*evenSplitter).Split` (splits.go lines 21-76): `nil` check, split
count check, validation, Euclidean `div`/`mod` of the bound difference,
the fatal `leftOver >= numSplits` branch (modelled as the error value
`PError.internalFault`), then the emission loop. -/
def Split (p : Option Partition) (numSplits : Int) :
    Except PError (List Partition) :=
  match p with
  | none => .error .partitionNil
  | some part =>
    if numSplits ≤ 1 then .error .invalidNumSplits
    else
      match validatePartition (some part) with
      | some e => .error e
      | none =>
        let delta := part.upperBound - part.lowerBound
        let step := delta.ediv numSplits
        let leftOver := delta.emod numSplits
        if leftOver ≥ numSplits then .error .internalFault
        else .ok (splitIter part.label step part.lowerBound numSplits.toNat 0 none leftOver)

/-- `HashRange` (partition.go lines 243-276), reduced to the data the
core reads from it: the digest function (`Reset`+`Write`+`Sum`
interpreted as a big-endian unsigned integer) and the fixed bounds. -/
structure HashRange where
  digest : List Nat → Nat
  lowerBound : Int
  upperBound : Int
  hashFunctionName : String

/-- `PartitionMap` (partition.go lines 126-157).  The Go `keyMap`
(a `map[string]*Partition`) is embedded as an association list. -/
structure PartitionMap where
  name : String
  partitions : List Partition
  range : HashRange
  keyMap : List (String × Partition)

/-- `(*PartitionMap).keyHash` (partition.go lines 169-178): digest the
key under the hash mutex and read the sum as an unsigned integer. -/
def keyHash (pm : PartitionMap) (key : List Nat) : Int :=
  (pm.range.digest key : Int)

/-- `(*PartitionMap).ResolvePartition` (partition.go lines 159-167).
The Go body rejects an empty key, computes the key hash, prints it with
`fmt.Println`, and then returns `nil, nil`: no lookup is performed and
no partition is ever returned.  The discarded hash is kept as a `let`
to mirror the source. -/
def resolvePartition (pm : PartitionMap) (key : List Nat) :
    Except PError (Option Partition) :=
  if key.length = 0 then .error .invalidKey
  else
    let _hash := keyHash pm key
    .ok none

/-- The sortedness test of `(*PartitionMap).sortPartitions`
(partition.go lines 181-183): `sort.SliceIsSorted` with
`less i j = lb i < lb j` holds iff every adjacent pair is
non-decreasing in `lowerBound`. -/
def lowerSorted : List Partition → Bool
  | [] => true
  | [_] => true
  | a :: b :: rest => (a.lowerBound ≤ b.lowerBound) && lowerSorted (b :: rest)

/-- Insertion step of the stand-in for Go's `sort.Slice`. -/
def insertByLower (q : Partition) : List Partition → List Partition
  | [] => [q]
  | r :: rest =>
    if q.lowerBound ≤ r.lowerBound then q :: r :: rest
    else r :: insertByLower q rest

/-- Stand-in for `sort.Slice` with `less i j = lb i < lb j`: an
insertion sort by `lowerBound`.  (Any comparison sort matches the Go
behaviour up to the order of equal keys; the claims below only exercise
the already-sorted branch of `sortPartitions`.) -/
def sortByLower : List Partition → List Partition
  | [] => []
  | q :: rest => insertByLower q (sortByLower rest)

/-- `(*PartitionMap).sortPartitions` (partition.go lines 180-192):
sort only when `sort.SliceIsSorted` fails. -/
def sortPartitions (l : List Partition) : List Partition :=
  if lowerSorted l then l else sortByLower l

/-- The root partition synthesised by `NewPartitionMap`
(partition.go lines 221-223). -/
def rootPartition (h : HashRange) (pfx : String) : Partition :=
  { label := pfx, lowerBound := h.lowerBound, upperBound := h.upperBound }

/-- `NewPartitionMap` (partition.go lines 219-240): split the root,
propagate any error with a `nil` map, otherwise build the key map and
the map value and sort its partitions in place. -/
def newPartitionMap (h : HashRange) (name pfx : String) (numSplits : Int) :
    Except PError PartitionMap :=
  match Split (some (rootPartition h pfx)) numSplits with
  | .error e => .error e
  | .ok splits =>
    let keyMap := splits.map (fun v => (v.label, v))
    let pm : PartitionMap :=
      { name := name, partitions := splits, range := h, keyMap := keyMap }
    .ok { pm with partitions := sortPartitions pm.partitions }

/-- Lowercase hexadecimal digit of `d < 16`, as produced by
`big.Int.Text(16)`. -/
def hexDigitChar (d : Nat) : Char :=
  if d < 10 then Char.ofNat (48 + d) else Char.ofNat (87 + d)

/-- Digits of `n` in base 16, most significant first, accumulated onto
`acc`. -/
def natToHexAux (n : Nat) (acc : List Char) : List Char :=
  if n = 0 then acc
  else natToHexAux (n / 16) (hexDigitChar (n % 16) :: acc)
decreasing_by exact Nat.div_lt_self (Nat.pos_of_ne_zero (by assumption)) (by omega)

/-- `big.Int.Text(16)` for a non-negative value: lowercase hexadecimal,
no prefix, and `"0"` for zero. -/
def natToHex (n : Nat) : String :=
  if n = 0 then "0" else ⟨natToHexAux n []⟩

/-- `big.Int.Text(16)`: a leading minus sign for negative values. -/
def intToHexText (i : Int) : String :=
  if i < 0 then "-" ++ natToHex i.natAbs else natToHex i.toNat

/-- `(*Partition).MarshalJSON` (partition.go lines 77-84): the JSON
object is assembled by direct string concatenation. -/
def marshalJSON (p : Partition) : String :=
  "\x7b\"label\":\"" ++ p.label ++ "\",\"lower_bound\":\"" ++
    intToHexText p.lowerBound ++ "\",\"upper_bound\":\"" ++
    intToHexText p.upperBound ++ "\"\x7d"

/-- `(*Partition).UnmarshalJSON` (partition.go lines 86-104).  The body
begins with `pdata := make(map[string]string)` followed by
`json.Unmarshal(b, pdata)`: the map is passed by value, not by pointer,
and `encoding/json.Unmarshal` returns an `InvalidUnmarshalError` for
every non-pointer target before looking at the data.  The call
therefore fails on every input and the remaining field-parsing code of
the Go function is unreachable. -/
def unmarshalJSON (_b : String) : Except PError Partition :=
  .error .invalidUnmarshal

/-- A concrete hash range used to instantiate witnesses: bounds
`[0, 255]` with a constant digest. -/
def testRange : HashRange :=
  { digest := fun _ => 7, lowerBound := 0, upperBound := 255,
    hashFunctionName := "TEST" }

/-- The value `newPartitionMap testRange "key_store" "p" 4` evaluates to
(checked by `testMap_built` below); used to instantiate witnesses. -/
def testMap : PartitionMap :=
  { name := "key_store",
    partitions :=
      [{ label := "p-0", lowerBound := 0, upperBound := 64 },
       { label := "p-1", lowerBound := 65, upperBound := 128 },
       { label := "p-2", lowerBound := 129, upperBound := 192 },
       { label := "p-3", lowerBound := 193, upperBound := 255 }],
    range := testRange,
    keyMap :=
      [("p-0", { label := "p-0", lowerBound := 0, upperBound := 64 }),
       ("p-1", { label := "p-1", lowerBound := 65, upperBound := 128 }),
       ("p-2", { label := "p-2", lowerBound := 129, upperBound := 192 }),
       ("p-3", { label := "p-3", lowerBound := 193, upperBound := 255 })] }

theorem testMap_built :
    newPartitionMap testRange "key_store" "p" 4 = .ok testMap := by rfl

theorem setUpperBoundAndCarry_fst (base step L : Int) :
    (setUpperBoundAndCarry base step L).1 =
      base + step + (if 0 < L then 1 else 0) := by
  unfold setUpperBoundAndCarry
  split <;> simp_all

theorem setUpperBoundAndCarry_snd (base step L : Int) :
    (setUpperBoundAndCarry base step L).2 = L - (if 0 < L then 1 else 0) := by
  unfold setUpperBoundAndCarry
  split <;> simp_all

theorem splitIter_some_succ (lbl : String) (step origLb u L : Int) (m i : Nat) :
    splitIter lbl step origLb (m + 1) i (some u) L =
      { label := lbl ++ "-" ++ toString i, lowerBound := u + 1,
        upperBound := (setUpperBoundAndCarry u step L).1 }
        :: splitIter lbl step origLb m (i + 1)
             (some (setUpperBoundAndCarry u step L).1)
             (setUpperBoundAndCarry u step L).2 := rfl

theorem splitIter_none_succ (lbl : String) (step origLb L : Int) (m i : Nat) :
    splitIter lbl step origLb (m + 1) i none L =
      { label := lbl ++ "-" ++ toString i, lowerBound := origLb,
        upperBound := (setUpperBoundAndCarry origLb step L).1 }
        :: splitIter lbl step origLb m (i + 1)
             (some (setUpperBoundAndCarry origLb step L).1)
             (setUpperBoundAndCarry origLb step L).2 := rfl

theorem splitIter_length (lbl : String) (step origLb : Int) :
    ∀ (m i : Nat) (prev : Option Int) (L : Int),
      (splitIter lbl step origLb m i prev L).length = m := by
  intro m
  induction m with
  | zero => intro i prev L; cases prev <;> rfl
  | succ m ih =>
    intro i prev L
    cases prev <;> simp only [splitIter, List.length_cons, ih]

theorem splitIter_getElem_some (lbl : String) (step origLb : Int) :
    ∀ (m k i : Nat) (u L : Int), 0 ≤ L → k < m →
      (splitIter lbl step origLb m i (some u) L)[k]? =
        some { label := lbl ++ "-" ++ toString (i + k),
               lowerBound := u + (k : Int) * step + min (k : Int) L + 1,
               upperBound := u + ((k : Int) + 1) * step + min ((k : Int) + 1) L } := by
  intro m
  induction m with
  | zero => intro k i u L _ hk; exact absurd hk (Nat.not_lt_zero k)
  | succ m ih =>
    intro k i u L hL hk
    cases k with
    | zero =>
      rw [splitIter_some_succ, List.getElem?_cons_zero, setUpperBoundAndCarry_fst]
      by_cases h0 : 0 < L
      · simp only [if_pos h0, Option.some.injEq, Partition.mk.injEq, Nat.add_zero]
        refine ⟨trivial, by push_cast; ring_nf; omega, by push_cast; ring_nf; omega⟩
      · simp only [if_neg h0, Option.some.injEq, Partition.mk.injEq, Nat.add_zero]
        refine ⟨trivial, by push_cast; ring_nf; omega, by push_cast; ring_nf; omega⟩
    | succ k =>
      have hk' : k < m := Nat.lt_of_succ_lt_succ hk
      have hL' : 0 ≤ (setUpperBoundAndCarry u step L).2 := by
        rw [setUpperBoundAndCarry_snd]; split <;> omega
      rw [splitIter_some_succ, List.getElem?_cons_succ,
        ih k (i + 1) (setUpperBoundAndCarry u step L).1
          (setUpperBoundAndCarry u step L).2 hL' hk',
        setUpperBoundAndCarry_fst, setUpperBoundAndCarry_snd]
      have e0 : i + 1 + k = i + (k + 1) := by omega
      by_cases h0 : 0 < L
      · simp only [if_pos h0, Option.some.injEq, Partition.mk.injEq, e0]
        refine ⟨trivial, ?_, ?_⟩
        · push_cast
          have e1 : ((k : Int) + 1) * step = (k : Int) * step + step := by ring
          rw [e1]
          generalize (k : Int) * step = A
          omega
        · push_cast
          have e1 : ((k : Int) + 1) * step = (k : Int) * step + step := by ring
          have e2 : ((k : Int) + 1 + 1) * step = (k : Int) * step + step + step := by
            ring
          rw [e1, e2]
          generalize (k : Int) * step = A
          omega
      · simp only [if_neg h0, Option.some.injEq, Partition.mk.injEq, e0]
        refine ⟨trivial, ?_, ?_⟩
        · push_cast
          have e1 : ((k : Int) + 1) * step = (k : Int) * step + step := by ring
          rw [e1]
          generalize (k : Int) * step = A
          omega
        · push_cast
          have e1 : ((k : Int) + 1) * step = (k : Int) * step + step := by ring
          have e2 : ((k : Int) + 1 + 1) * step = (k : Int) * step + step + step := by
            ring
          rw [e1, e2]
          generalize (k : Int) * step = A
          omega

theorem validate_none_lt {p : Partition}
    (hv : validatePartition (some p) = none) : p.lowerBound < p.upperBound := by
  simp only [validatePartition] at hv
  by_cases h : p.lowerBound ≥ p.upperBound
  · rw [if_pos h] at hv; exact absurd hv (by simp)
  · omega

theorem split_eq_ok (p : Partition) (n : Int) (hn : 1 < n)
    (hv : validatePartition (some p) = none) :
    Split (some p) n =
      .ok (splitIter p.label ((p.upperBound - p.lowerBound).ediv n)
        p.lowerBound n.toNat 0 none ((p.upperBound - p.lowerBound).emod n)) := by
  have hnle : ¬ n ≤ 1 := by omega
  have hpanic : ¬ ((p.upperBound - p.lowerBound).emod n ≥ n) := by
    have hlt : (p.upperBound - p.lowerBound).emod n < n :=
      Int.emod_lt_of_pos (p.upperBound - p.lowerBound) (show 0 < n by omega)
    omega
  simp only [Split, hv, if_neg hnle, if_neg hpanic]

theorem split_result_getElem (p : Partition) (n : Int) (hn : 1 < n)
    (k : Nat) (hk : k < n.toNat) :
    (splitIter p.label ((p.upperBound - p.lowerBound).ediv n) p.lowerBound
        n.toNat 0 none ((p.upperBound - p.lowerBound).emod n))[k]? =
      some { label := p.label ++ "-" ++ toString k,
             lowerBound := p.lowerBound
               + (k : Int) * ((p.upperBound - p.lowerBound).ediv n)
               + min (k : Int) ((p.upperBound - p.lowerBound).emod n)
               + (if k = 0 then 0 else 1),
             upperBound := p.lowerBound
               + ((k : Int) + 1) * ((p.upperBound - p.lowerBound).ediv n)
               + min ((k : Int) + 1) ((p.upperBound - p.lowerBound).emod n) } := by
  have hL : 0 ≤ (p.upperBound - p.lowerBound).emod n :=
    Int.emod_nonneg _ (by omega)
  rcases hm : n.toNat with _ | m
  · omega
  rw [hm] at hk
  generalize hstep : (p.upperBound - p.lowerBound).ediv n = step at *
  generalize hLek : (p.upperBound - p.lowerBound).emod n = L at *
  rw [splitIter_none_succ]
  cases k with
  | zero =>
    rw [List.getElem?_cons_zero, setUpperBoundAndCarry_fst]
    by_cases h0 : 0 < L
    · simp only [if_pos h0, Option.some.injEq, Partition.mk.injEq, if_pos rfl]
      refine ⟨trivial, by push_cast; ring_nf; omega, by push_cast; ring_nf; omega⟩
    · simp only [if_neg h0, Option.some.injEq, Partition.mk.injEq, if_pos rfl]
      refine ⟨trivial, by push_cast; ring_nf; omega, by push_cast; ring_nf; omega⟩
  | succ k =>
    have hk' : k < m := Nat.lt_of_succ_lt_succ hk
    have hL' : 0 ≤ (setUpperBoundAndCarry p.lowerBound step L).2 := by
      rw [setUpperBoundAndCarry_snd]; split <;> omega
    rw [List.getElem?_cons_succ,
      splitIter_getElem_some p.label step p.lowerBound m k 1
        (setUpperBoundAndCarry p.lowerBound step L).1
        (setUpperBoundAndCarry p.lowerBound step L).2 hL' hk',
      setUpperBoundAndCarry_fst, setUpperBoundAndCarry_snd]
    have e0 : 1 + k = k + 1 := by omega
    by_cases h0 : 0 < L
    · simp only [if_pos h0, Option.some.injEq, Partition.mk.injEq, e0,
        if_neg (Nat.succ_ne_zero k)]
      refine ⟨trivial, ?_, ?_⟩
      · push_cast
        have e1 : ((k : Int) + 1) * step = (k : Int) * step + step := by ring
        rw [e1]
        generalize (k : Int) * step = A
        omega
      · push_cast
        have e1 : ((k : Int) + 1) * step = (k : Int) * step + step := by ring
        have e2 : ((k : Int) + 1 + 1) * step = (k : Int) * step + step + step := by
          ring
        rw [e1, e2]
        generalize (k : Int) * step = A
        omega
    · simp only [if_neg h0, Option.some.injEq, Partition.mk.injEq, e0,
        if_neg (Nat.succ_ne_zero k)]
      refine ⟨trivial, ?_, ?_⟩
      · push_cast
        have e1 : ((k : Int) + 1) * step = (k : Int) * step + step := by ring
        rw [e1]
        generalize (k : Int) * step = A
        omega
      · push_cast
        have e1 : ((k : Int) + 1) * step = (k : Int) * step + step := by ring
        have e2 : ((k : Int) + 1 + 1) * step = (k : Int) * step + step + step := by
          ring
        rw [e1, e2]
        generalize (k : Int) * step = A
        omega

theorem split_ok_inv {p : Partition} {n : Int} {res : List Partition}
    (hres : Split (some p) n = .ok res) :
    1 < n ∧ validatePartition (some p) = none ∧
      res = splitIter p.label ((p.upperBound - p.lowerBound).ediv n)
        p.lowerBound n.toNat 0 none ((p.upperBound - p.lowerBound).emod n) := by
  simp only [Split] at hres
  by_cases hn : n ≤ 1
  · rw [if_pos hn] at hres; nomatch hres
  rw [if_neg hn] at hres
  cases hval : validatePartition (some p) with
  | some e => rw [hval] at hres; nomatch hres
  | none =>
    rw [hval] at hres
    by_cases hmod : (p.upperBound - p.lowerBound).emod n ≥ n
    · rw [if_pos hmod] at hres; nomatch hres
    · rw [if_neg hmod] at hres
      exact ⟨by omega, rfl, (Except.ok.inj hres).symm⟩

/-- Helper: recover the plain indexed value from `split_result_getElem`. -/
theorem split_result_get (p : Partition) (n : Int) (hn : 1 < n)
    (k : Nat) (hk : k < n.toNat)
    (hlen : k < (splitIter p.label ((p.upperBound - p.lowerBound).ediv n)
      p.lowerBound n.toNat 0 none ((p.upperBound - p.lowerBound).emod n)).length) :
    (splitIter p.label ((p.upperBound - p.lowerBound).ediv n) p.lowerBound
        n.toNat 0 none ((p.upperBound - p.lowerBound).emod n))[k] =
      { label := p.label ++ "-" ++ toString k,
        lowerBound := p.lowerBound
          + (k : Int) * ((p.upperBound - p.lowerBound).ediv n)
          + min (k : Int) ((p.upperBound - p.lowerBound).emod n)
          + (if k = 0 then 0 else 1),
        upperBound := p.lowerBound
          + ((k : Int) + 1) * ((p.upperBound - p.lowerBound).ediv n)
          + min ((k : Int) + 1) ((p.upperBound - p.lowerBound).emod n) } := by
  have hsome := split_result_getElem p n hn k hk
  rwa [List.getElem?_eq_getElem hlen, Option.some.injEq] at hsome

theorem lowerSorted_iff (l : List Partition) :
    lowerSorted l = true ↔
      l.Chain' (fun a b => a.lowerBound ≤ b.lowerBound) := by
  induction l with
  | nil => simp [lowerSorted]
  | cons a l ih =>
    cases l with
    | nil => simp [lowerSorted]
    | cons b t =>
      simp only [lowerSorted, Bool.and_eq_true, decide_eq_true_eq,
        List.chain'_cons, ih]

theorem split_chain (p : Partition) (n : Int) (hn : 1 < n)
    (hv : validatePartition (some p) = none) :
    (splitIter p.label ((p.upperBound - p.lowerBound).ediv n) p.lowerBound
        n.toNat 0 none ((p.upperBound - p.lowerBound).emod n)).Chain'
      (fun a b => a.lowerBound ≤ b.lowerBound) := by
  rw [List.chain'_iff_get]
  intro i hi
  rw [splitIter_length] at hi
  have h1 : i < n.toNat := by omega
  have h2 : i + 1 < n.toNat := by omega
  have hlen1 : i < (splitIter p.label ((p.upperBound - p.lowerBound).ediv n)
      p.lowerBound n.toNat 0 none ((p.upperBound - p.lowerBound).emod n)).length := by
    rw [splitIter_length]; omega
  have hlen2 : i + 1 < (splitIter p.label ((p.upperBound - p.lowerBound).ediv n)
      p.lowerBound n.toNat 0 none ((p.upperBound - p.lowerBound).emod n)).length := by
    rw [splitIter_length]; omega
  rw [List.get_eq_getElem, List.get_eq_getElem,
    split_result_get p n hn i h1 hlen1, split_result_get p n hn (i + 1) h2 hlen2]
  dsimp only
  have hstep : 0 ≤ (p.upperBound - p.lowerBound).ediv n := by
    have hlt := validate_none_lt hv
    exact Int.ediv_nonneg (by omega) (by omega)
  have hL : 0 ≤ (p.upperBound - p.lowerBound).emod n :=
    Int.emod_nonneg _ (by omega)
  push_cast
  have e1 : ((i : Int) + 1) * ((p.upperBound - p.lowerBound).ediv n)
      = (i : Int) * ((p.upperBound - p.lowerBound).ediv n)
        + (p.upperBound - p.lowerBound).ediv n := by ring
  rw [e1]
  generalize (i : Int) * ((p.upperBound - p.lowerBound).ediv n) = A
  split_ifs <;> omega

theorem range_filter_cast_lt (r : Int) (h0 : 0 ≤ r) :
    ∀ m : Nat, r ≤ (m : Int) →
      ((List.range m).filter (fun k : Nat => decide ((k : Int) < r))).length
        = r.toNat := by
  intro m
  induction m with
  | zero =>
    intro hm
    simp only [List.range_zero, List.filter_nil, List.length_nil]
    omega
  | succ m ih =>
    intro hm
    rw [List.range_succ, List.filter_append, List.length_append]
    by_cases hc : (m : Int) < r
    · have hall : (List.range m).filter (fun k : Nat => decide ((k : Int) < r))
          = List.range m := by
        rw [List.filter_eq_self]
        intro a ha
        rw [List.mem_range] at ha
        simp only [decide_eq_true_eq]
        omega
      have hone : [m].filter (fun k : Nat => decide ((k : Int) < r)) = [m] := by
        simp only [List.filter_cons, List.filter_nil]
        rw [if_pos (by simpa using hc)]
      rw [hall, hone, List.length_range, List.length_singleton]
      omega
    · have hone : [m].filter (fun k : Nat => decide ((k : Int) < r)) = [] := by
        simp only [List.filter_cons, List.filter_nil]
        rw [if_neg (by simpa using hc)]
      rw [hone, ih (by omega), List.length_nil]
      omega

/-- C1: the claim says `ResolvePartition(key)` returns the partition `p`
of the map with `p.lowerBound ≤ digest(key) ≤ p.upperBound`.  The code
instead computes the digest, prints it, and returns a `nil` partition
with a `nil` error for every non-empty key of every map: no partition is
ever returned, so the containment property has no witness in the code. -/
theorem resolvePartition_no_lookup (pm : PartitionMap) (key : List Nat)
    (hkey : key.length ≠ 0) :
    resolvePartition pm key = .ok none := by
  unfold resolvePartition
  rw [if_neg hkey]

theorem resolvePartition_no_lookup_witness :
    resolvePartition testMap [116, 97, 107, 101, 116, 104, 97, 116] = .ok none :=
  resolvePartition_no_lookup testMap [116, 97, 107, 101, 116, 104, 97, 116]
    (by decide)

/-- C4: splitting `[0, 255]` into 4 parts yields exactly
`[0,64], [65,128], [129,192], [193,255]` in that order. -/
theorem split_zero_255_four_way :
    Split (some { label := "p", lowerBound := 0, upperBound := 255 }) 4 =
      .ok [{ label := "p-0", lowerBound := 0, upperBound := 64 },
           { label := "p-1", lowerBound := 65, upperBound := 128 },
           { label := "p-2", lowerBound := 129, upperBound := 192 },
           { label := "p-3", lowerBound := 193, upperBound := 255 }] := by rfl

/-- C5: the claim says marshalling a partition and unmarshalling the
result succeeds and round-trips the bounds.  In the code
`UnmarshalJSON` hands `json.Unmarshal` its target map by value (not by
pointer), so the call is rejected with an `InvalidUnmarshalError` on
every input, including every output of `MarshalJSON`: the round trip
always fails. -/
theorem unmarshal_marshal_always_fails (p : Partition) :
    unmarshalJSON (marshalJSON p) = .error .invalidUnmarshal := rfl

/-- C6 counterexample: the claim says `Split(source, 1)` fails with
`InvalidNumSplits` for every source, but at the source `nil` the `nil`
check runs first and `Split(nil, 1)` returns `PartitionNilError`
instead. -/
theorem split_nil_one_counterexample :
    Split none 1 = .error .partitionNil ∧
      Split none 1 ≠ .error .invalidNumSplits :=
  ⟨rfl, fun hcontra => nomatch (Except.error.inj hcontra)⟩

/-- C6 amended: for every non-nil source, `Split(source, 1)` and
`Split(source, 0)` fail with `InvalidNumSplits`; `Split(nil, N)` fails
with `PartitionNilError` for every `N` (the `nil` check precedes the
count check); and `ResolvePartition` with an empty key fails with
`InvalidKey` for every map. -/
theorem split_resolve_rejections_amended :
    (∀ p : Partition, Split (some p) 1 = .error .invalidNumSplits) ∧
    (∀ p : Partition, Split (some p) 0 = .error .invalidNumSplits) ∧
    (∀ n : Int, Split none n = .error .partitionNil) ∧
    (∀ pm : PartitionMap, resolvePartition pm [] = .error .invalidKey) :=
  ⟨fun _ => rfl, fun _ => rfl, fun _ => rfl, fun _ => rfl⟩

/-- C7: whenever the splitter fails on the root partition,
`NewPartitionMap` returns that error unchanged and no map (`.error e`
in this embedding is Go's `nil, err` return). -/
theorem newPartitionMap_error_propagation (h : HashRange)
    (name pfx : String) (n : Int) (e : PError)
    (hs : Split (some (rootPartition h pfx)) n = .error e) :
    newPartitionMap h name pfx n = .error e := by
  unfold newPartitionMap
  rw [hs]

theorem newPartitionMap_error_propagation_witness :
    newPartitionMap testRange "key_store" "p" 1 = .error .invalidNumSplits :=
  newPartitionMap_error_propagation testRange "key_store" "p" 1
    .invalidNumSplits rfl

/-- C8: for a valid source and split count `n > 1` the remainder
`(upper - lower) emod n` satisfies `0 ≤ remainder < n`, so the fatal
`leftOver >= numSplits` branch of `Split` is unreachable. -/
theorem split_remainder_invariant (p : Partition) (n : Int) (hn : 1 < n)
    (hv : validatePartition (some p) = none) :
    0 ≤ (p.upperBound - p.lowerBound).emod n ∧
    (p.upperBound - p.lowerBound).emod n < n ∧
    Split (some p) n ≠ .error .internalFault := by
  refine ⟨Int.emod_nonneg _ (by omega), Int.emod_lt_of_pos _ (by omega), ?_⟩
  rw [split_eq_ok p n hn hv]
  intro hcontra
  nomatch hcontra

theorem split_remainder_invariant_witness :
    0 ≤ (((255 : Int)) - 0).emod 4 ∧ (((255 : Int)) - 0).emod 4 < 4 ∧
      Split (some { label := "p", lowerBound := 0, upperBound := 255 }) 4 ≠
        .error .internalFault :=
  split_remainder_invariant { label := "p", lowerBound := 0, upperBound := 255 }
    4 (by norm_num) (by decide)

/-- C2: for every valid source and count `n > 1`, `Split` succeeds with
exactly `n` intervals; the first lower bound is the source's lower
bound, the last upper bound is the source's upper bound, and each
subsequent lower bound is the previous upper bound plus one. -/
theorem split_exact_coverage (p : Partition) (n : Int) (hn : 1 < n)
    (hv : validatePartition (some p) = none) :
    ∃ res, Split (some p) n = .ok res ∧ res.length = n.toNat ∧
      (∀ h0 : 0 < res.length, res[0].lowerBound = p.lowerBound) ∧
      (∀ hl : n.toNat - 1 < res.length,
        res[n.toNat - 1].upperBound = p.upperBound) ∧
      (∀ k, (hk : k + 1 < res.length) →
        res[k + 1].lowerBound = res[k].upperBound + 1) := by
  have hL : 0 ≤ (p.upperBound - p.lowerBound).emod n :=
    Int.emod_nonneg _ (by omega)
  have hlt : (p.upperBound - p.lowerBound).emod n < n :=
    Int.emod_lt_of_pos _ (by omega)
  refine ⟨_, split_eq_ok p n hn hv, splitIter_length _ _ _ _ _ _ _, ?_, ?_, ?_⟩
  · intro h0
    rw [split_result_get p n hn 0 (by omega) h0]
    dsimp only
    norm_num
    omega
  · intro hl
    rw [split_result_get p n hn (n.toNat - 1) (by omega) hl]
    dsimp only
    have hc : ((n.toNat - 1 : Nat) : Int) = n - 1 := by omega
    rw [hc]
    have e' : (n : Int) - 1 + 1 = n := by ring
    rw [e']
    have hde : n * ((p.upperBound - p.lowerBound).ediv n)
        + (p.upperBound - p.lowerBound).emod n
        = p.upperBound - p.lowerBound := Int.ediv_add_emod _ n
    set A := n * ((p.upperBound - p.lowerBound).ediv n) with hA
    omega
  · intro k hk
    have hk1 : k + 1 < n.toNat := by rw [splitIter_length] at hk; exact hk
    rw [split_result_get p n hn (k + 1) hk1 hk,
      split_result_get p n hn k (by omega) (by omega)]
    dsimp only
    rw [if_neg (by omega : ¬ (k + 1 = 0))]
    push_cast
    ring

theorem split_exact_coverage_witness :
    ∃ res,
      Split (some { label := "p", lowerBound := 0, upperBound := 255 }) 4
        = .ok res ∧
      res.length = (4 : Int).toNat ∧
      (∀ h0 : 0 < res.length, res[0].lowerBound = (0 : Int)) ∧
      (∀ hl : (4 : Int).toNat - 1 < res.length,
        res[(4 : Int).toNat - 1].upperBound = (255 : Int)) ∧
      (∀ k, (hk : k + 1 < res.length) →
        res[k + 1].lowerBound = res[k].upperBound + 1) :=
  split_exact_coverage { label := "p", lowerBound := 0, upperBound := 255 } 4
    (by norm_num) (by decide)

/-- C3: with `step = (upper - lower) ediv n` and
`remainder = (upper - lower) emod n`, interval `k` of the split exceeds
its carry-free width by one exactly when `k < remainder` (the width of
interval `k` is `step - (if k = 0 then 0 else 1)` plus the carry), and
exactly `remainder` of the `n` emission indices receive that carry —
the first `remainder` ones. -/
theorem split_remainder_distribution (p : Partition) (n : Int) (hn : 1 < n)
    (hv : validatePartition (some p) = none) :
    ∃ res, Split (some p) n = .ok res ∧
      (∀ k, (hk : k < res.length) →
        res[k].upperBound - res[k].lowerBound
          = (p.upperBound - p.lowerBound).ediv n - (if k = 0 then 0 else 1)
            + (if (k : Int) < (p.upperBound - p.lowerBound).emod n
                then 1 else 0)) ∧
      ((List.range res.length).filter
          (fun k : Nat =>
            decide ((k : Int) < (p.upperBound - p.lowerBound).emod n))).length
        = ((p.upperBound - p.lowerBound).emod n).toNat := by
  have hL : 0 ≤ (p.upperBound - p.lowerBound).emod n :=
    Int.emod_nonneg _ (by omega)
  have hlt : (p.upperBound - p.lowerBound).emod n < n :=
    Int.emod_lt_of_pos _ (by omega)
  refine ⟨_, split_eq_ok p n hn hv, ?_, ?_⟩
  · intro k hk
    have hkn : k < n.toNat := by rw [splitIter_length] at hk; exact hk
    rw [split_result_get p n hn k hkn hk]
    dsimp only
    have e1 : ((k : Int) + 1) * ((p.upperBound - p.lowerBound).ediv n)
        = (k : Int) * ((p.upperBound - p.lowerBound).ediv n)
          + (p.upperBound - p.lowerBound).ediv n := by ring
    rw [e1]
    generalize (k : Int) * ((p.upperBound - p.lowerBound).ediv n) = A
    split_ifs <;> omega
  · rw [splitIter_length]
    exact range_filter_cast_lt _ hL n.toNat (by omega)

theorem split_remainder_distribution_witness :
    ∃ res,
      Split (some { label := "p", lowerBound := 0, upperBound := 255 }) 4
        = .ok res ∧
      (∀ k, (hk : k < res.length) →
        res[k].upperBound - res[k].lowerBound
          = ((255 : Int) - 0).ediv 4 - (if k = 0 then 0 else 1)
            + (if (k : Int) < ((255 : Int) - 0).emod 4 then 1 else 0)) ∧
      ((List.range res.length).filter
          (fun k : Nat => decide ((k : Int) < ((255 : Int) - 0).emod 4))).length
        = (((255 : Int) - 0).emod 4).toNat :=
  split_remainder_distribution { label := "p", lowerBound := 0, upperBound := 255 }
    4 (by norm_num) (by decide)

/-- C9: in every map built by `NewPartitionMap`, the stored partitions
are sorted by lower bound in ascending (non-decreasing) order and
coincide with the splitter's emission order (the `sort.Slice` branch of
`sortPartitions` is never taken for splitter output). -/
theorem newPartitionMap_sorted_emission (h : HashRange) (name pfx : String)
    (n : Int) (pm : PartitionMap)
    (hpm : newPartitionMap h name pfx n = .ok pm) :
    pm.partitions.Chain' (fun a b => a.lowerBound ≤ b.lowerBound) ∧
    ∀ splits, Split (some (rootPartition h pfx)) n = .ok splits →
      pm.partitions = splits := by
  unfold newPartitionMap at hpm
  cases hs : Split (some (rootPartition h pfx)) n with
  | error e => rw [hs] at hpm; nomatch hpm
  | ok splits =>
    rw [hs] at hpm
    dsimp only at hpm
    obtain ⟨hn, hv, hsplits⟩ := split_ok_inv hs
    have hch : splits.Chain' (fun a b => a.lowerBound ≤ b.lowerBound) := by
      rw [hsplits]; exact split_chain _ n hn hv
    have hls : lowerSorted splits = true := (lowerSorted_iff splits).mpr hch
    have hsort : sortPartitions splits = splits := by
      unfold sortPartitions; rw [if_pos hls]
    have hpmeq := Except.ok.inj hpm
    refine ⟨?_, ?_⟩
    · rw [← hpmeq]
      dsimp only
      rw [hsort]
      exact hch
    · intro splits' hs'
      have heq : splits = splits' := Except.ok.inj hs'
      rw [← hpmeq]
      dsimp only
      rw [hsort]
      exact heq

theorem newPartitionMap_sorted_emission_witness :
    testMap.partitions.Chain' (fun a b => a.lowerBound ≤ b.lowerBound) ∧
    ∀ splits, Split (some (rootPartition testRange "p")) 4 = .ok splits →
      testMap.partitions = splits :=
  newPartitionMap_sorted_emission testRange "key_store" "p" 4 testMap (by rfl)

/-- C10: for a valid source whose bound difference is smaller than the
split count, `Split` still succeeds with `n` partitions, at least one of
which has `lowerBound > upperBound` — the output is never re-validated
against the `lower < upper` invariant. -/
theorem split_degenerate_invalid (p : Partition) (n : Int) (hn : 1 < n)
    (hv : validatePartition (some p) = none)
    (hd : p.upperBound - p.lowerBound < n) :
    ∃ res, Split (some p) n = .ok res ∧ res.length = n.toNat ∧
      ∃ q ∈ res, q.upperBound < q.lowerBound := by
  have hdelta : 0 < p.upperBound - p.lowerBound := by
    have := validate_none_lt hv; omega
  refine ⟨_, split_eq_ok p n hn hv, splitIter_length _ _ _ _ _ _ _, ?_⟩
  have hstep : (p.upperBound - p.lowerBound).ediv n = 0 :=
    Int.ediv_eq_zero_of_lt (by omega) hd
  have hL : (p.upperBound - p.lowerBound).emod n = p.upperBound - p.lowerBound :=
    Int.emod_eq_of_lt (by omega) hd
  have hkn : (p.upperBound - p.lowerBound).toNat < n.toNat := by omega
  have hlen : (p.upperBound - p.lowerBound).toNat <
      (splitIter p.label ((p.upperBound - p.lowerBound).ediv n) p.lowerBound
        n.toNat 0 none ((p.upperBound - p.lowerBound).emod n)).length := by
    rw [splitIter_length]; exact hkn
  refine ⟨(splitIter p.label ((p.upperBound - p.lowerBound).ediv n) p.lowerBound
      n.toNat 0 none ((p.upperBound - p.lowerBound).emod n))[(p.upperBound -
      p.lowerBound).toNat], List.getElem_mem hlen, ?_⟩
  rw [split_result_get p n hn (p.upperBound - p.lowerBound).toNat hkn hlen]
  dsimp only
  rw [hstep, hL, if_neg (by omega : ¬ ((p.upperBound - p.lowerBound).toNat = 0))]
  have hcast : (((p.upperBound - p.lowerBound).toNat : Nat) : Int)
      = p.upperBound - p.lowerBound := by omega
  rw [hcast]
  ring_nf
  omega

theorem split_degenerate_invalid_witness :
    ∃ res,
      Split (some { label := "p", lowerBound := 0, upperBound := 2 }) 4
        = .ok res ∧
      res.length = (4 : Int).toNat ∧
      ∃ q ∈ res, q.upperBound < q.lowerBound :=
  split_degenerate_invalid { label := "p", lowerBound := 0, upperBound := 2 } 4
    (by norm_num) (by decide) (by norm_num)
